import Mathlib

/-!
Shallow embedding of the latency-monitor core (src/lm): the numeric
coercion helpers (`safe_float` in utils/numbers.py and
`SummaryTable._parse_number_like` in ui/summary_table.py), the dynamic
filter engine, the grouped summaries, the counterparty volume-share
summary and the time-bucketed cumulative series of ui/main_window.py.

Modelling conventions:
* a pandas DataFrame row becomes a `Row` record; a snapshot is a
  `List Row` in row order;
* Python floats are modelled as `ℚ` (the claims under scrutiny are
  about exact arithmetic identities, where float rounding is the
  "floating tolerance" the spec allows);
* timestamps are seconds (`ℕ`); `TimeDT.dt.floor("s")` is then the
  identity and 1-second buckets are consecutive naturals;
* fallible parsing returns `Option ℚ`.
-/

/-- Model of Python's builtin `float(string)` on an already-stripped
character list: optional sign, decimal digits with an optional point
(at least one digit overall), optional exponent.  `inf` / `nan` /
underscore literals, which no caller in this code base produces, are
not modelled. -/
def digitsToNat (ds : List Char) : Nat :=
  ds.foldl (fun a c => a * 10 + (c.toNat - 48)) 0

/-- Split a leading run of ASCII digits from the rest. -/
def takeDigits : List Char → List Char × List Char
  | [] => ([], [])
  | c :: cs =>
    if c.isDigit then
      let r := takeDigits cs
      (c :: r.1, r.2)
    else ([], c :: cs)

/-- Optional leading sign, as a rational factor. -/
def parseSign : List Char → ℚ × List Char
  | '+' :: cs => (1, cs)
  | '-' :: cs => (-1, cs)
  | cs => (1, cs)

/-- Exponent digits (after the `e`): sign and at least one digit. -/
def parseExpPart (cs : List Char) : Option (Int × List Char) :=
  let p : Int × List Char :=
    match cs with
    | '+' :: r => (1, r)
    | '-' :: r => (-1, r)
    | r => (1, r)
  let d := takeDigits p.2
  if d.1.isEmpty then none else some (p.1 * (digitsToNat d.1 : Int), d.2)

/-- The mantissa of a float literal: `digits`, `digits.`, `digits.digits`
or `.digits`; fails if there is no digit at all. -/
def parseMantissa (cs : List Char) : Option ℚ × List Char :=
  let ip := takeDigits cs
  match ip.2 with
  | '.' :: r =>
    let fp := takeDigits r
    if ip.1.isEmpty && fp.1.isEmpty then (none, fp.2)
    else
      (some ((digitsToNat ip.1 : ℚ) + (digitsToNat fp.1 : ℚ) / (10 : ℚ) ^ fp.1.length), fp.2)
  | r => if ip.1.isEmpty then (none, r) else (some (digitsToNat ip.1 : ℚ), r)

def pyFloatChars (cs0 : List Char) : Option ℚ :=
  let s := parseSign cs0
  let m := parseMantissa s.2
  match m.1 with
  | none => none
  | some x =>
    match m.2 with
    | [] => some (s.1 * x)
    | 'e' :: r =>
      (match parseExpPart r with
       | some (e, []) => some (s.1 * x * (10 : ℚ) ^ e)
       | _ => none)
    | 'E' :: r =>
      (match parseExpPart r with
       | some (e, []) => some (s.1 * x * (10 : ℚ) ^ e)
       | _ => none)
    | _ => none

/-- Model of Python `str.strip()`: drop whitespace at both ends. -/
def pyStrip (cs : List Char) : List Char :=
  ((cs.dropWhile Char.isWhitespace).reverse.dropWhile Char.isWhitespace).reverse

/-- src/lm/utils/numbers.py `safe_float`: replace every comma with a
dot, strip, convert via `float`, and fall back to `dflt` when the
conversion raises. -/
def safeFloat (s : String) (dflt : Option ℚ) : Option ℚ :=
  match pyFloatChars (pyStrip (s.data.map (fun c => if c = ',' then '.' else c))) with
  | some x => some x
  | none => dflt

/-- The character class of `SummaryTable._re_space_like`:
`[   \s]` (NBSP, figure space, narrow NBSP and the
regex whitespace class). -/
def isSpaceLike (c : Char) : Bool :=
  c.isWhitespace || c = ' ' || c = ' ' || c = ' '

/-- `SummaryTable._normalize_minus`: the unicode minus variants
U+2212, U+2012, U+2013 and U+2014 become the ASCII minus. -/
def normalizeMinus (c : Char) : Char :=
  if c = '−' || c = '‒' || c = '–' || c = '—' then '-' else c

def isCurrencyGlyph (c : Char) : Bool :=
  c = '€' || c = '$' || c = '£'

/-- src/lm/ui/summary_table.py `SummaryTable._parse_number_like` on a
string input: strip; empty means `none`; remove space-like characters;
normalize minus signs; peel an accounting `(...)` wrapper; remove
currency glyphs; peel one trailing `%`; remove commas; convert with
`float`; an accounting wrapper forces the sign negative. -/
def parseNumberLike (s : String) : Option ℚ :=
  let s0 := pyStrip s.data
  if s0.isEmpty then none
  else
    let s1 := (s0.filter (fun c => !(isSpaceLike c))).map normalizeMinus
    let isParen := (s1.head? == some '(') && (s1.getLast? == some ')')
    let s2 := if isParen then (s1.drop 1).dropLast else s1
    let s3 := s2.filter (fun c => !(isCurrencyGlyph c))
    let s4 := if s3.getLast? == some '%' then s3.dropLast else s3
    let s5 := s4.filter (fun c => c ≠ ',')
    match pyFloatChars s5 with
    | none => none
    | some x => some (if isParen then -|x| else x)

/-- One row of a snapshot (`Trade Record` of the spec, the DataFrame
columns used by the core logic of ui/main_window.py).  `timeDT` is the
timestamp in whole seconds. -/
structure Row where
  time : String
  timeDT : Nat
  nombre : String
  exchange : String
  counterparty : String
  isin : String
  side : String
  qty : ℚ
  execPrice : ℚ
  pnl : ℚ
  incTS : ℚ
deriving DecidableEq, Repr

/-- One dynamic filter of `TradesApp.dynamic_filters`: a categorical
column (accessor plus the list of currently selected listbox values) or
a numeric column (accessor plus the raw min/max entry texts). -/
inductive ColFilter where
  | cat (col : Row → String) (selected : List String)
  | num (col : Row → ℚ) (minStr maxStr : String)

/-- Whether one row passes one filter, following the body of
`TradesApp.apply_dynamic_filters`: a categorical filter with a
non-empty selection drops the `"(All)"` sentinel and, if anything
remains, keeps rows whose column value is among the remainder; a
numeric filter parses both bounds with `safe_float` and applies
whichever parsed (`value >= min`, `value <= max`). -/
def rowPass (f : ColFilter) (r : Row) : Bool :=
  match f with
  | .cat col sel =>
    if sel.isEmpty then true
    else
      let chosenWoAll := sel.filter (fun v => v ≠ "(All)")
      if chosenWoAll.isEmpty then true
      else chosenWoAll.contains (col r)
  | .num col minS maxS =>
    let vmin := safeFloat minS none
    let vmax := safeFloat maxS none
    (match vmin with
     | some m => decide (m ≤ col r)
     | none => true) &&
    (match vmax with
     | some m => decide (col r ≤ m)
     | none => true)

/-- `TradesApp.apply_dynamic_filters`: the filters are applied one
after the other (`df = df[mask]` per column), i.e. ANDed; the result is
the pure filtered view (`reset_index(drop=True)`: positions are
re-numbered contiguously, which a `List` gives for free; the source
`df_all` is never mutated). -/
def applyFilters (filters : List ColFilter) (df : List Row) : List Row :=
  filters.foldl (fun acc f => acc.filter (rowPass f)) df

/-- `TradesApp.clear_all_dynamic_filters` on the filter state: every
categorical selection becomes exactly the `"(All)"` sentinel and every
numeric bound text is emptied. -/
def clearFilter : ColFilter → ColFilter
  | .cat col _ => .cat col ["(All)"]
  | .num col _ _ => .num col "" ""

def clearAll (filters : List ColFilter) : List ColFilter :=
  filters.map clearFilter

/-- Duplicate removal keeping the first occurrence of each value, in
encounter order (what `pandas.unique` / dict-of-first-seen would give);
used to name the groups a `groupby` will form. -/
def dedupFirstAux {α : Type} [DecidableEq α] (seen : List α) : List α → List α
  | [] => []
  | a :: as =>
    if a ∈ seen then dedupFirstAux seen as
    else a :: dedupFirstAux (a :: seen) as

def dedupFirst {α : Type} [DecidableEq α] (l : List α) : List α :=
  dedupFirstAux [] l

/-- Lexicographic comparison of character lists by code point — the
order Python `<` puts strings in, hence the order pandas `groupby`
emits its group keys in. -/
def charsLe : List Char → List Char → Bool
  | [], _ => true
  | _ :: _, [] => false
  | a :: as, b :: bs =>
    if a < b then true
    else if b < a then false
    else charsLe as bs

def strLe (a b : String) : Prop := charsLe a.data b.data = true

instance : DecidableRel strLe :=
  fun a b => inferInstanceAs (Decidable (charsLe a.data b.data = true))

theorem charsLe_cons (a b : Char) (as bs : List Char) :
    charsLe (a :: as) (b :: bs) = true ↔ a < b ∨ (a = b ∧ charsLe as bs = true) := by
  by_cases h1 : a < b
  · simp [charsLe, h1]
  · by_cases h2 : b < a
    · simp [charsLe, h1, h2, h2.ne']
    · have hab : a = b := le_antisymm (not_lt.mp h2) (not_lt.mp h1)
      subst hab
      simp [charsLe, h1]

theorem charsLe_total : ∀ as bs : List Char,
    charsLe as bs = true ∨ charsLe bs as = true
  | [], _ => Or.inl rfl
  | _ :: _, [] => Or.inr rfl
  | a :: as, b :: bs => by
    rcases lt_trichotomy a b with h | h | h
    · exact Or.inl ((charsLe_cons _ _ _ _).mpr (Or.inl h))
    · subst h
      rcases charsLe_total as bs with hh | hh
      · exact Or.inl ((charsLe_cons _ _ _ _).mpr (Or.inr ⟨rfl, hh⟩))
      · exact Or.inr ((charsLe_cons _ _ _ _).mpr (Or.inr ⟨rfl, hh⟩))
    · exact Or.inr ((charsLe_cons _ _ _ _).mpr (Or.inl h))

theorem charsLe_trans : ∀ as bs cs : List Char,
    charsLe as bs = true → charsLe bs cs = true → charsLe as cs = true
  | [], _, _, _, _ => rfl
  | _ :: _, [], _, h, _ => by simp [charsLe] at h
  | _ :: _, _ :: _, [], _, h => by simp [charsLe] at h
  | a :: as, b :: bs, c :: cs, h1, h2 => by
    rcases (charsLe_cons _ _ _ _).mp h1 with hab | ⟨rfl, hab⟩
    · rcases (charsLe_cons _ _ _ _).mp h2 with hbc | ⟨rfl, hbc⟩
      · exact (charsLe_cons _ _ _ _).mpr (Or.inl (lt_trans hab hbc))
      · exact (charsLe_cons _ _ _ _).mpr (Or.inl hab)
    · rcases (charsLe_cons _ _ _ _).mp h2 with hbc | ⟨rfl, hbc⟩
      · exact (charsLe_cons _ _ _ _).mpr (Or.inl hbc)
      · exact (charsLe_cons _ _ _ _).mpr
          (Or.inr ⟨rfl, charsLe_trans as bs cs hab hbc⟩)

instance : IsTotal String strLe :=
  ⟨fun a b => charsLe_total a.data b.data⟩

instance : IsTrans String strLe :=
  ⟨fun a b c => charsLe_trans a.data b.data c.data⟩

/-- One output row of `make_summary` (the per-group aggregate record of
`TradesApp.update_global_summaries`). -/
structure SummaryRow where
  key : String
  trades : Nat
  pos_trades : Nat
  neg_trades : Nat
  pct_pos : ℚ
  dt_mean : ℚ
  pnl_mean : ℚ
  pnl_total : ℚ
  pnl_pos : ℚ
  pnl_neg : ℚ
deriving DecidableEq, Repr

/-- The aggregate record for the group of `df` whose key is `k`,
following the `agg` dictionary of `make_summary` (trade count,
positive/negative counts and sums, `pct_pos` with the `max(1, len)`
guard, means of `inc_t_s` and `PnL`, total `PnL`). -/
def summaryOf (key : Row → String) (df : List Row) (k : String) : SummaryRow :=
  let g := df.filter (fun r => key r == k)
  let n := g.length
  { key := k
    trades := n
    pos_trades := (g.filter (fun r => 0 < r.pnl)).length
    neg_trades := (g.filter (fun r => r.pnl < 0)).length
    pct_pos := 100 * ((g.filter (fun r => 0 < r.pnl)).length : ℚ) / (max 1 n : ℚ)
    dt_mean := ((g.map (fun r => r.incTS)).sum) / (n : ℚ)
    pnl_mean := ((g.map (fun r => r.pnl)).sum) / (n : ℚ)
    pnl_total := (g.map (fun r => r.pnl)).sum
    pnl_pos := ((g.filter (fun r => 0 < r.pnl)).map (fun r => r.pnl)).sum
    pnl_neg := ((g.filter (fun r => r.pnl < 0)).map (fun r => r.pnl)).sum }

/-- The descending order on summary rows used by
`sort_values("pnl_total", ascending=False)`. -/
def pnlDescR (a b : SummaryRow) : Prop := b.pnl_total ≤ a.pnl_total

instance : DecidableRel pnlDescR :=
  fun a b => inferInstanceAs (Decidable (b.pnl_total ≤ a.pnl_total))

instance : IsTotal SummaryRow pnlDescR :=
  ⟨fun a b => (le_total b.pnl_total a.pnl_total).elim Or.inl Or.inr⟩

instance : IsTrans SummaryRow pnlDescR :=
  ⟨fun _ _ _ h1 h2 => le_trans h2 h1⟩

/-- `make_summary(df, keycol)` of `TradesApp.update_global_summaries`:
`groupby(keycol)` forms one aggregate row per distinct key, with the
keys in ascending order (pandas `groupby` sorts the group keys), then
the rows are ordered by descending `pnl_total`.  The source's
`sort_values` uses the default `kind='quicksort'`, whose order among
equal totals is implementation-defined (not stable); this embedding
realises it as an insertion sort, one admissible tie order, and no
theorem below relies on which tie order is produced beyond concrete
two-group inputs (where numpy's small-array sort coincides with it).
For an empty `df` both key extraction and grouping give the empty
list, matching the early `df.empty` return of the source. -/
def makeSummary (key : Row → String) (df : List Row) : List SummaryRow :=
  let ks := List.insertionSort strLe (dedupFirst (df.map key))
  List.insertionSort pnlDescR (ks.map (summaryOf key df))

/-- The ISIN summary is capped to the strongest 50 rows:
`make_summary(self.df_all, "ISIN").head(50)`. -/
def isinSummary (df : List Row) : List SummaryRow :=
  (makeSummary (fun r => r.isin) df).take 50

/-- Per-row traded notional of `CounterpartyVolumeTable.update_from_df`
(`qty` and `exec price` are passed through `.abs()` before the
product). -/
def vol (r : Row) : ℚ := |r.qty| * |r.execPrice|

/-- Bucket classification of `update_from_df`: the bucket column value
is upper-cased and compared against the upper-cased main values; the
first match wins, anything else is `"Other"`.  The deployed instance
uses `bucket_col="nombre"`, `main_values=("TSLA","NVDA")`. -/
def bucketOf (main1 main2 : String) (r : Row) : String :=
  if r.nombre.toUpper = main1.toUpper then main1
  else if r.nombre.toUpper = main2.toUpper then main2
  else "Other"

/-- The per-counterparty accumulator of `update_from_df` before
percentage derivation (`g` after `unstack`): the notional summed per
bucket for one counterparty. -/
structure CpEntry where
  cp : String
  vol1 : ℚ
  vol2 : ℚ
  volOther : ℚ
deriving DecidableEq, Repr

def cpTotal (e : CpEntry) : ℚ := e.vol1 + e.vol2 + e.volOther

def mkCpEntry (main1 main2 : String) (df : List Row) (cp : String) : CpEntry :=
  let mine := df.filter (fun r => r.counterparty == cp)
  { cp := cp
    vol1 := ((mine.filter (fun r => bucketOf main1 main2 r == main1)).map vol).sum
    vol2 := ((mine.filter (fun r => bucketOf main1 main2 r == main2)).map vol).sum
    volOther := ((mine.filter (fun r => bucketOf main1 main2 r == "Other")).map vol).sum }

/-- The descending order on counterparty entries used by
`g.sort_values("total", ascending=False)`. -/
def cpDescR (a b : CpEntry) : Prop := cpTotal b ≤ cpTotal a

instance : DecidableRel cpDescR :=
  fun a b => inferInstanceAs (Decidable (cpTotal b ≤ cpTotal a))

instance : IsTotal CpEntry cpDescR :=
  ⟨fun a b => (le_total (cpTotal b) (cpTotal a)).elim Or.inl Or.inr⟩

instance : IsTrans CpEntry cpDescR :=
  ⟨fun _ _ _ h1 h2 => le_trans h2 h1⟩

/-- One emitted row of the counterparty volume-share table, kept as the
underlying numbers (the widget then formats them as text). -/
structure CpRow where
  cp : String
  vol1 : ℚ
  vol2 : ℚ
  volOther : ℚ
  total : ℚ
  pct1 : ℚ
  pct2 : ℚ
  pctOther : ℚ
  pctTotal : ℚ
deriving DecidableEq, Repr

/-- The distinct counterparties, in the (sorted) order pandas
`groupby("counterparty")` emits them. -/
def cpKeys (df : List Row) : List String :=
  List.insertionSort strLe (dedupFirst (df.map (fun r => r.counterparty)))

/-- The per-counterparty bucket sums (`g` of `update_from_df` after
`unstack` and the column fill). -/
def cpEntries (main1 main2 : String) (df : List Row) : List CpEntry :=
  (cpKeys df).map (mkCpEntry main1 main2 df)

/-- `g["total"].sum()`: the raw global notional, before the
`if ... > 0 else 1.0` guard. -/
def cpTotalGlobal (main1 main2 : String) (df : List Row) : ℚ :=
  ((cpEntries main1 main2 df).map cpTotal).sum

/-- The body of the row loop of `update_from_df`: skip a counterparty
whose total is `<= 0` (`continue`), otherwise emit its volumes, its
three bucket share fractions and its share of the global total. -/
def cpEmit (tg : ℚ) (e : CpEntry) : Option CpRow :=
  if cpTotal e ≤ 0 then none
  else some
    { cp := e.cp
      vol1 := e.vol1
      vol2 := e.vol2
      volOther := e.volOther
      total := cpTotal e
      pct1 := e.vol1 / cpTotal e
      pct2 := e.vol2 / cpTotal e
      pctOther := e.volOther / cpTotal e
      pctTotal := cpTotal e / tg }

/-- `CounterpartyVolumeTable.update_from_df`: group the notional by
(counterparty, bucket) — pandas sorts the counterparty keys — derive
each counterparty's total, take the global total across counterparties
(with the `if sum > 0 else 1.0` guard), sort by descending total, and
emit one row per counterparty with positive total. -/
def cpSummary (main1 main2 : String) (df : List Row) : List CpRow :=
  let tg := if 0 < cpTotalGlobal main1 main2 df then cpTotalGlobal main1 main2 df else 1
  (List.insertionSort cpDescR (cpEntries main1 main2 df)).filterMap (cpEmit tg)

/-- First second carrying data (`s.index[0]` after the 1s resample of
the ascending-sorted in-window rows): the minimum of the floored
timestamps. -/
def firstSec : List (Nat × ℚ) → Nat
  | [] => 0
  | p :: ps => ps.foldl (fun m q => min m q.1) p.1

/-- Last second carrying data (`s.index[-1]`): the maximum of the
floored timestamps. -/
def lastSec : List (Nat × ℚ) → Nat
  | [] => 0
  | p :: ps => ps.foldl (fun m q => max m q.1) p.1

/-- Total contribution of one second (`resample("1s").sum()` /
`groupby(level=0).size()` for unit contributions). -/
def perSecondSum (data : List (Nat × ℚ)) (s : Nat) : ℚ :=
  ((data.filter (fun q => q.1 == s)).map (fun q => q.2)).sum

/-- The contiguous per-second index
`pd.date_range(first_sec, last_sec, freq="1s")`. -/
def secRange (data : List (Nat × ℚ)) : List Nat :=
  List.range' (firstSec data) (lastSec data - firstSec data + 1)

/-- The reindexed per-second series (`reindex(sec_index, fill_value=0)`
over the per-second sums): seconds with no contribution carry 0. -/
def bucketed (data : List (Nat × ℚ)) : List (Nat × ℚ) :=
  (secRange data).map (fun s => (s, perSecondSum data s))

/-- Running sum with accumulator (`cumsum`). -/
def cumFrom (acc : ℚ) : List (Nat × ℚ) → List (Nat × ℚ)
  | [] => []
  | p :: ps => (p.1, acc + p.2) :: cumFrom (acc + p.2) ps

/-- The time-bucketed cumulative series of `update_cumulative_pnl` /
`update_trades_over_time` / `update_volume_over_time`, taking the
already-in-window (timestamp second, contribution) pairs: per-second
sums on the contiguous first..last index, zero-filled, then `cumsum`. -/
def cumSeries (data : List (Nat × ℚ)) : List (Nat × ℚ) :=
  cumFrom 0 (bucketed data)

/-- The in-window (second, PnL) pairs feeding `update_cumulative_pnl`:
rows of the filtered snapshot restricted to the 08:00–22:00 band of the
first row's day. -/
def windowRows (startS endS : Nat) (df : List Row) : List Row :=
  df.filter (fun r => decide (startS ≤ r.timeDT) && decide (r.timeDT ≤ endS))

def pnlSeriesInput (startS endS : Nat) (df : List Row) : List (Nat × ℚ) :=
  (windowRows startS endS df).map (fun r => (r.timeDT, r.pnl))

/-- The mutable state of `TradesApp` that the refresh path touches. -/
structure AppState where
  df_all : List Row
  dynamic_filters : List ColFilter
  df_filtered : List Row
  running : Bool
  refresh_ms : Int

/-- `TradesApp._safe_refresh_ms`: the configured interval clamped to
[2000, 30000] ms. -/
def safeRefreshMs (st : AppState) : Int :=
  max 2000 (min st.refresh_ms 30000)

/-- The summary recomputation of `TradesApp.update_global_summaries`:
all four tables are built from `self.df_all`, the unfiltered
snapshot. -/
def updateGlobalSummaries (st : AppState) :
    List SummaryRow × List SummaryRow × List SummaryRow × List CpRow :=
  (makeSummary (fun r => r.exchange) st.df_all,
   isinSummary st.df_all,
   makeSummary (fun r => r.nombre) st.df_all,
   cpSummary "TSLA" "NVDA" st.df_all)

/-- One tick of `TradesApp.refresh_data`.  The provider either returns
a snapshot or raises (`Except.error`).  When running, a successful
fetch replaces `df_all` and recomputes the filtered view; an exception
is caught by the `except` block (logged) leaving the state untouched.
The `finally` block always schedules the next tick after
`_safe_refresh_ms()` of the unchanged `refresh_ms` setting.  The result
is the new state and the scheduled delay. -/
def refreshData (st : AppState) (fetched : Except String (List Row)) :
    AppState × Int :=
  let st' :=
    if st.running then
      match fetched with
      | .ok df =>
        { st with df_all := df, df_filtered := applyFilters st.dynamic_filters df }
      | .error _ => st
    else st
  (st', safeRefreshMs st')

/-- Concrete row builder for counterexamples and witnesses: name,
exchange, counterparty, ISIN, quantity, execution price, PnL,
timestamp second. -/
def mkRow (nombre exchange cp isin : String) (qty price pnl : ℚ) (t : Nat) : Row :=
  ⟨"", t, nombre, exchange, cp, isin, "buy", qty, price, pnl, 0⟩

/-! Helper lemmas. -/

theorem applyFilters_nil (df : List Row) : applyFilters [] df = df := rfl

theorem applyFilters_cons (f : ColFilter) (fs : List ColFilter) (df : List Row) :
    applyFilters (f :: fs) df = applyFilters fs (df.filter (rowPass f)) := rfl

theorem applyFilters_single (f : ColFilter) (df : List Row) :
    applyFilters [f] df = df.filter (rowPass f) := rfl

theorem applyFilters_sublist (fs : List ColFilter) (df : List Row) :
    (applyFilters fs df).Sublist df := by
  induction fs generalizing df with
  | nil => exact List.Sublist.refl df
  | cons f fs ih =>
    rw [applyFilters_cons]
    exact (ih (df.filter (rowPass f))).trans (List.filter_sublist df)

theorem rowPass_clearFilter (f : ColFilter) (r : Row) :
    rowPass (clearFilter f) r = true := by
  cases f with
  | cat col sel => simp [clearFilter, rowPass]
  | num col a b =>
    have h : safeFloat "" none = none := rfl
    simp [clearFilter, rowPass, h]

theorem applyFilters_clearAll (fs : List ColFilter) (df : List Row) :
    applyFilters (clearAll fs) df = df := by
  induction fs generalizing df with
  | nil => rfl
  | cons f fs ih =>
    rw [clearAll, List.map_cons, applyFilters_cons,
      List.filter_eq_self.mpr (fun r _ => rowPass_clearFilter f r)]
    exact ih df

/-! Claim theorems. -/

/-- C4: for every snapshot and every filter spec the filtered result is
a subset of the input rows in the input's relative order (a `Sublist`;
re-indexing is positional and the input list is untouched, the model
being pure), and applying the filters right after `clearAll` returns
the original snapshot unchanged. -/
theorem filters_subset_order_and_clear_identity
    (fs : List ColFilter) (df : List Row) :
    (applyFilters fs df).Sublist df ∧ applyFilters (clearAll fs) df = df :=
  ⟨applyFilters_sublist fs df, applyFilters_clearAll fs df⟩

/-- C7: the `_parse_number_like` contract on its five reference inputs:
accounting parentheses negate, thousands commas are stripped, a
trailing percent is stripped without dividing by 100, and empty or
non-numeric text gives `none` rather than an exception. -/
theorem parse_number_like_reference_values :
    parseNumberLike "(123.4)" = some (-(1234 / 10 : ℚ))
    ∧ parseNumberLike "1,234.5" = some (12345 / 10 : ℚ)
    ∧ parseNumberLike "53%" = some (53 : ℚ)
    ∧ parseNumberLike "" = none
    ∧ parseNumberLike "abc" = none := by
  refine ⟨?_, ?_, ?_, rfl, rfl⟩
  · rw [show parseNumberLike "(123.4)"
        = some (-|(1 : ℚ) * ((123 : ℚ) + (4 : ℚ) / (10 : ℚ) ^ (1 : ℕ))|) from rfl]
    norm_num
  · rw [show parseNumberLike "1,234.5"
        = some ((1 : ℚ) * ((1234 : ℚ) + (5 : ℚ) / (10 : ℚ) ^ (1 : ℕ))) from rfl]
    norm_num
  · rw [show parseNumberLike "53%" = some ((1 : ℚ) * (53 : ℚ)) from rfl]
    norm_num

/-- C10 (implicit): `safe_float` turns every comma into a dot before
calling `float`, so a comma is a decimal separator (`"1,5"` parses as
1.5) while thousands-separated input (`"1,234.5"`) fails and yields the
default `none` — unlike `_parse_number_like`, which strips commas.
`safe_float` is what `apply_dynamic_filters` uses for the numeric
range-filter bounds, as the third conjunct shows on a `min` bound of
`"1,5"`: exactly the rows with value ≥ 1.5 survive. -/
theorem safe_float_comma_is_decimal_separator :
    safeFloat "1,5" none = some (3 / 2 : ℚ)
    ∧ safeFloat "1,234.5" none = none
    ∧ applyFilters [ColFilter.num (fun r => r.pnl) "1,5" ""]
        [mkRow "TSLA" "A" "H" "X" 1 1 (7 / 5) 0, mkRow "TSLA" "A" "H" "X" 1 1 (8 / 5) 0]
      = [mkRow "TSLA" "A" "H" "X" 1 1 (8 / 5) 0] := by
  have hmin : safeFloat "1,5" none = some (3 / 2 : ℚ) := by
    rw [show safeFloat "1,5" none
        = some ((1 : ℚ) * ((1 : ℚ) + (5 : ℚ) / (10 : ℚ) ^ (1 : ℕ))) from rfl]
    norm_num
  have hmax : safeFloat "" none = none := rfl
  refine ⟨hmin, rfl, ?_⟩
  have hp : ∀ r : Row,
      rowPass (ColFilter.num (fun r => r.pnl) "1,5" "") r
        = decide ((3 : ℚ) / 2 ≤ r.pnl) := by
    intro r
    simp [rowPass, hmin, hmax]
  rw [applyFilters_single, List.filter_cons, List.filter_cons, List.filter_nil,
    hp, hp]
  norm_num [mkRow]

/-- C8: the four global summaries are computed from `df_all` alone:
two app states holding the same snapshot but arbitrary different
filter specs (and correspondingly different filtered views) produce
identical summary outputs — the live filter state has no influence. -/
theorem global_summaries_independent_of_filters
    (df : List Row) (fs1 fs2 : List ColFilter) (run1 run2 : Bool) (ms1 ms2 : Int) :
    updateGlobalSummaries ⟨df, fs1, applyFilters fs1 df, run1, ms1⟩
      = updateGlobalSummaries ⟨df, fs2, applyFilters fs2 df, run2, ms2⟩ := rfl

/-- C9: when the provider's fetch raises during a running tick, the
whole state — in particular `df_all` — is left unchanged, and the
`finally` block schedules the next tick at the regular clamped
interval, the same delay a successful tick would schedule (no backoff,
no retry limit). -/
theorem refresh_error_retains_snapshot_and_reschedules
    (st : AppState) (e : String) (df : List Row) (hrun : st.running = true) :
    (refreshData st (.error e)).1.df_all = st.df_all
    ∧ (refreshData st (.error e)).1 = st
    ∧ (refreshData st (.error e)).2 = max 2000 (min st.refresh_ms 30000)
    ∧ (refreshData st (.error e)).2 = (refreshData st (.ok df)).2 := by
  refine ⟨?_, ?_, ?_, ?_⟩ <;> simp [refreshData, hrun, safeRefreshMs]

/-- Witness for C9 at a concrete running state with interval 5000 and a
concrete fetch error. -/
theorem refresh_error_retains_snapshot_and_reschedules_witness :
    (refreshData ⟨[], [], [], true, 5000⟩ (.error "boom")).1.df_all = []
    ∧ (refreshData ⟨[], [], [], true, 5000⟩ (.error "boom")).1 = ⟨[], [], [], true, 5000⟩
    ∧ (refreshData ⟨[], [], [], true, 5000⟩ (.error "boom")).2 = max 2000 (min 5000 30000)
    ∧ (refreshData ⟨[], [], [], true, 5000⟩ (.error "boom")).2
        = (refreshData ⟨[], [], [], true, 5000⟩ (.ok [])).2 :=
  refresh_error_retains_snapshot_and_reschedules ⟨[], [], [], true, 5000⟩ "boom" [] rfl

/-- C1 counterexample: with exchanges `[A, B]` and the selection
`["(All)", "A"]` — non-empty and *including* the `"(All)"` sentinel —
the claim says no filtering happens on the column, yet
`apply_dynamic_filters` drops `"(All)"` from the selection and filters
by the remaining `{"A"}`, losing the `B` row. -/
theorem cat_filter_all_sentinel_counterexample :
    applyFilters [ColFilter.cat (fun r => r.exchange) ["(All)", "A"]]
        [mkRow "TSLA" "A" "H" "X" 1 1 0 0, mkRow "TSLA" "B" "H" "X" 1 1 0 0]
      = [mkRow "TSLA" "A" "H" "X" 1 1 0 0]
    ∧ applyFilters [ColFilter.cat (fun r => r.exchange) ["(All)", "A"]]
        [mkRow "TSLA" "A" "H" "X" 1 1 0 0, mkRow "TSLA" "B" "H" "X" 1 1 0 0]
      ≠ [mkRow "TSLA" "A" "H" "X" 1 1 0 0, mkRow "TSLA" "B" "H" "X" 1 1 0 0] := by
  have h : applyFilters [ColFilter.cat (fun r => r.exchange) ["(All)", "A"]]
      [mkRow "TSLA" "A" "H" "X" 1 1 0 0, mkRow "TSLA" "B" "H" "X" 1 1 0 0]
      = [mkRow "TSLA" "A" "H" "X" 1 1 0 0] := rfl
  refine ⟨h, ?_⟩
  rw [h]
  intro hq
  exact absurd (congrArg List.length hq) (by decide)

/-- C1 amended: a categorical filter is a no-op exactly when the
selection minus the `"(All)"` sentinel is empty (empty selection, or a
selection consisting only of `"(All)"`); otherwise it keeps exactly
the rows whose column value is among the selected values other than
`"(All)"` — so a selection that contains `"(All)"` alongside other
values still filters by those other values.  When `"(All)"` is not
selected at all, the remainder is the selection itself, giving the
claim's first half unchanged. -/
theorem cat_filter_semantics_amended
    (col : Row → String) (sel : List String) (df : List Row) :
    applyFilters [ColFilter.cat col sel] df
      = if sel.filter (fun v => v ≠ "(All)") = [] then df
        else df.filter (fun r => (sel.filter (fun v => v ≠ "(All)")).contains (col r)) := by
  rw [applyFilters_single]
  by_cases h : sel.filter (fun v => v ≠ "(All)") = []
  · rw [if_pos h]
    refine List.filter_eq_self.mpr (fun r _ => ?_)
    simp only [rowPass, h]
    by_cases hs : sel.isEmpty <;> simp [hs]
  · rw [if_neg h]
    refine List.filter_congr (fun r _ => ?_)
    have hsel : sel.isEmpty = false := by
      rcases sel with _ | ⟨v, vs⟩
      · simp at h
      · rfl
    have hch : (sel.filter (fun v => v ≠ "(All)")).isEmpty = false := by
      rcases hl : sel.filter (fun v => v ≠ "(All)") with _ | _
      · exact absurd hl h
      · rfl
    simp only [rowPass, hsel, hch, Bool.false_eq_true, if_false]

theorem mem_dedupFirstAux {α : Type} [DecidableEq α] (seen : List α) (l : List α)
    (x : α) : x ∈ dedupFirstAux seen l ↔ x ∈ l ∧ x ∉ seen := by
  induction l generalizing seen with
  | nil => simp [dedupFirstAux]
  | cons a as ih =>
    by_cases h : a ∈ seen
    · rw [dedupFirstAux, if_pos h, ih]
      constructor
      · exact fun ⟨hx, hns⟩ => ⟨List.mem_cons_of_mem _ hx, hns⟩
      · rintro ⟨hx, hns⟩
        rcases List.mem_cons.mp hx with rfl | hx
        · exact absurd h hns
        · exact ⟨hx, hns⟩
    · rw [dedupFirstAux, if_neg h]
      constructor
      · intro hx
        rcases List.mem_cons.mp hx with rfl | hx
        · exact ⟨List.mem_cons_self _ _, h⟩
        · rcases (ih _).mp hx with ⟨h1, h2⟩
          exact ⟨List.mem_cons_of_mem _ h1, fun hs => h2 (List.mem_cons_of_mem _ hs)⟩
      · rintro ⟨hx, hns⟩
        rcases List.mem_cons.mp hx with rfl | hx
        · exact List.mem_cons_self _ _
        · by_cases hxa : x = a
          · subst hxa; exact List.mem_cons_self _ _
          · exact List.mem_cons_of_mem _
              ((ih _).mpr ⟨hx, by simp [hxa, hns]⟩)

theorem mem_dedupFirst {α : Type} [DecidableEq α] (l : List α) (x : α) :
    x ∈ dedupFirst l ↔ x ∈ l := by
  rw [dedupFirst, mem_dedupFirstAux]
  simp

theorem nodup_dedupFirstAux {α : Type} [DecidableEq α] (seen : List α) (l : List α) :
    (dedupFirstAux seen l).Nodup := by
  induction l generalizing seen with
  | nil => exact List.nodup_nil
  | cons a as ih =>
    by_cases h : a ∈ seen
    · rw [dedupFirstAux, if_pos h]; exact ih seen
    · rw [dedupFirstAux, if_neg h]
      refine List.Nodup.cons (fun hmem => ?_) (ih (a :: seen))
      exact ((mem_dedupFirstAux _ _ _).mp hmem).2 (List.mem_cons_self _ _)

theorem nodup_dedupFirst {α : Type} [DecidableEq α] (l : List α) :
    (dedupFirst l).Nodup := nodup_dedupFirstAux [] l

/-- C2 corrected/amended: the grouped summary is sorted by
non-increasing total PnL.  No tie order among equal totals is
guaranteed — `groupby` emits the keys in ascending order, not
first-encounter order, and the following `sort_values` uses the
unstable default quicksort — so the original tie-break clause is
dropped rather than replaced. -/
theorem summary_sorted_desc_total_pnl (key : Row → String) (df : List Row) :
    List.Sorted pnlDescR (makeSummary key df) :=
  List.sorted_insertionSort pnlDescR _

/-- C2 counterexample: two rows with equal (zero) total PnL whose keys
are encountered in the order `B` then `A`.  The claim says the summary
lists group `B` before group `A` (first-encounter order for ties); the
code's `groupby` sorts the keys, so the summary comes out `A` before
`B`. -/
theorem summary_tiebreak_counterexample :
    ((makeSummary (fun r => r.exchange)
        [mkRow "TSLA" "B" "H" "X" 1 1 0 0, mkRow "TSLA" "A" "H" "X" 1 1 0 0]).map
          (fun s => s.key) = ["A", "B"])
    ∧ dedupFirst (([mkRow "TSLA" "B" "H" "X" 1 1 0 0,
        mkRow "TSLA" "A" "H" "X" 1 1 0 0]).map (fun r => r.exchange)) = ["B", "A"]
    ∧ (∀ s ∈ makeSummary (fun r => r.exchange)
          [mkRow "TSLA" "B" "H" "X" 1 1 0 0, mkRow "TSLA" "A" "H" "X" 1 1 0 0],
        s.pnl_total = 0)
    ∧ ((makeSummary (fun r => r.exchange)
        [mkRow "TSLA" "B" "H" "X" 1 1 0 0, mkRow "TSLA" "A" "H" "X" 1 1 0 0]).map
          (fun s => s.key) ≠ ["B", "A"]) := by
  have hA : (summaryOf (fun r => r.exchange)
      [mkRow "TSLA" "B" "H" "X" 1 1 0 0, mkRow "TSLA" "A" "H" "X" 1 1 0 0] "A").pnl_total
      = 0 := by
    rw [show (summaryOf (fun r => r.exchange)
        [mkRow "TSLA" "B" "H" "X" 1 1 0 0, mkRow "TSLA" "A" "H" "X" 1 1 0 0] "A").pnl_total
        = List.sum [(0 : ℚ)] from rfl]
    norm_num
  have hB : (summaryOf (fun r => r.exchange)
      [mkRow "TSLA" "B" "H" "X" 1 1 0 0, mkRow "TSLA" "A" "H" "X" 1 1 0 0] "B").pnl_total
      = 0 := by
    rw [show (summaryOf (fun r => r.exchange)
        [mkRow "TSLA" "B" "H" "X" 1 1 0 0, mkRow "TSLA" "A" "H" "X" 1 1 0 0] "B").pnl_total
        = List.sum [(0 : ℚ)] from rfl]
    norm_num
  have h3 : makeSummary (fun r => r.exchange)
      [mkRow "TSLA" "B" "H" "X" 1 1 0 0, mkRow "TSLA" "A" "H" "X" 1 1 0 0]
      = List.insertionSort pnlDescR
          [summaryOf (fun r => r.exchange)
            [mkRow "TSLA" "B" "H" "X" 1 1 0 0, mkRow "TSLA" "A" "H" "X" 1 1 0 0] "A",
           summaryOf (fun r => r.exchange)
            [mkRow "TSLA" "B" "H" "X" 1 1 0 0, mkRow "TSLA" "A" "H" "X" 1 1 0 0] "B"] := rfl
  have hcond : pnlDescR
      (summaryOf (fun r => r.exchange)
        [mkRow "TSLA" "B" "H" "X" 1 1 0 0, mkRow "TSLA" "A" "H" "X" 1 1 0 0] "A")
      (summaryOf (fun r => r.exchange)
        [mkRow "TSLA" "B" "H" "X" 1 1 0 0, mkRow "TSLA" "A" "H" "X" 1 1 0 0] "B") := by
    show (summaryOf _ _ "B").pnl_total ≤ (summaryOf _ _ "A").pnl_total
    rw [hA, hB]
  have h4 : makeSummary (fun r => r.exchange)
      [mkRow "TSLA" "B" "H" "X" 1 1 0 0, mkRow "TSLA" "A" "H" "X" 1 1 0 0]
      = [summaryOf (fun r => r.exchange)
          [mkRow "TSLA" "B" "H" "X" 1 1 0 0, mkRow "TSLA" "A" "H" "X" 1 1 0 0] "A",
         summaryOf (fun r => r.exchange)
          [mkRow "TSLA" "B" "H" "X" 1 1 0 0, mkRow "TSLA" "A" "H" "X" 1 1 0 0] "B"] := by
    rw [h3]
    simp only [List.insertionSort, List.orderedInsert]
    rw [if_pos hcond]
  refine ⟨?_, rfl, ?_, ?_⟩
  · rw [h4]; rfl
  · rw [h4]
    intro s hs
    rcases List.mem_cons.mp hs with rfl | hs
    · exact hA
    · rcases List.mem_cons.mp hs with rfl | hs
      · exact hB
      · exact absurd hs (List.not_mem_nil s)
  · rw [h4]
    intro hq
    have hlast := congrArg (fun l => List.getLast? l) hq
    simp only [List.getLast?] at hlast
    simp [summaryOf] at hlast

theorem sum_map_ite_of_mem {κ M : Type} [DecidableEq κ] [AddCommMonoid M]
    (ks : List κ) (x : κ) (c : M) (hnd : ks.Nodup) (hx : x ∈ ks) :
    (ks.map (fun k => if x = k then c else 0)).sum = c := by
  induction ks with
  | nil => cases hx
  | cons k ks ih =>
    rcases List.mem_cons.mp hx with hxk | hx2
    · subst hxk
      have hnot : x ∉ ks := (List.nodup_cons.mp hnd).1
      have hz : (ks.map (fun j => if x = j then c else 0)).sum = 0 := by
        apply List.sum_eq_zero
        intro y hy
        rcases List.mem_map.mp hy with ⟨k', hk', rfl⟩
        rw [if_neg]
        rintro rfl
        exact hnot hk'
      simp [hz]
    · have hne : x ≠ k := fun heq => (List.nodup_cons.mp hnd).1 (heq ▸ hx2)
      simp only [List.map_cons, List.sum_cons, if_neg hne, zero_add]
      exact ih (List.nodup_cons.mp hnd).2 hx2

/-- A group-by partition identity: summing `f` group by group, over a
duplicate-free list of group keys that covers every row, equals summing
`f` over all rows. -/
theorem sum_map_filter_partition {κ α M : Type} [DecidableEq κ] [AddCommMonoid M]
    (p : α → κ) (f : α → M) (ks : List κ) (df : List α)
    (hnd : ks.Nodup) (hcov : ∀ r ∈ df, p r ∈ ks) :
    (ks.map (fun k => ((df.filter (fun r => p r == k)).map f).sum)).sum
      = (df.map f).sum := by
  induction df with
  | nil => simp
  | cons r rest ih =>
    have hterm : ∀ k : κ, (((r :: rest).filter (fun x => p x == k)).map f).sum
        = (if p r = k then f r else 0)
          + ((rest.filter (fun x => p x == k)).map f).sum := by
      intro k
      by_cases h : p r = k
      · simp [List.filter_cons, h]
      · simp [List.filter_cons, h]
    rw [List.map_congr_left (fun k _ => hterm k), List.sum_map_add,
      sum_map_ite_of_mem ks (p r) (f r) hnd (hcov r (List.mem_cons_self r rest)),
      ih (fun x hx => hcov x (List.mem_cons_of_mem r hx))]
    simp

theorem length_eq_sum_map_one {α : Type} (l : List α) :
    (l.map (fun _ => (1 : ℕ))).sum = l.length := by
  induction l with
  | nil => rfl
  | cons a as ih => simp [ih, Nat.add_comm]

theorem makeSummary_trades_sum (key : Row → String) (df : List Row) :
    ((makeSummary key df).map (fun s => s.trades)).sum = df.length := by
  have hperm1 : List.Perm (makeSummary key df)
      ((List.insertionSort strLe (dedupFirst (df.map key))).map (summaryOf key df)) :=
    List.perm_insertionSort pnlDescR _
  have hperm2 : List.Perm (List.insertionSort strLe (dedupFirst (df.map key)))
      (dedupFirst (df.map key)) := List.perm_insertionSort strLe _
  rw [(hperm1.map (fun s => s.trades)).sum_eq,
    ((hperm2.map (summaryOf key df)).map (fun s => s.trades)).sum_eq,
    List.map_map]
  have hterm : ∀ k ∈ dedupFirst (df.map key),
      ((fun s => s.trades) ∘ summaryOf key df) k
        = ((df.filter (fun r => key r == k)).map (fun _ => (1 : ℕ))).sum := by
    intro k _
    rw [length_eq_sum_map_one]
    rfl
  rw [List.map_congr_left hterm,
    sum_map_filter_partition key (fun _ => (1 : ℕ)) (dedupFirst (df.map key)) df
      (nodup_dedupFirst _)
      (fun r hr => (mem_dedupFirst _ _).mpr (List.mem_map_of_mem key hr)),
    length_eq_sum_map_one]

/-- C5: the per-group trade counts of any grouped summary sum to the
number of rows in the snapshot (group keys are `String`-valued in this
model, so every row has a usable key), and the ISIN summary is the
`head(50)` — a prefix, hence the top 50 — of the descending-sorted
summary, so it never exceeds 50 rows. -/
theorem summary_counts_total_and_isin_cap (key : Row → String) (df : List Row) :
    ((makeSummary key df).map (fun s => s.trades)).sum = df.length
    ∧ (isinSummary df).length ≤ 50
    ∧ List.IsPrefix (isinSummary df) (makeSummary (fun r => r.isin) df) := by
  refine ⟨makeSummary_trades_sum key df, ?_, ?_⟩
  · rw [isinSummary, List.length_take]
    exact min_le_left _ _
  · exact ⟨(makeSummary (fun r => r.isin) df).drop 50, List.take_append_drop 50 _⟩

theorem vol_nonneg (r : Row) : 0 ≤ vol r :=
  mul_nonneg (abs_nonneg _) (abs_nonneg _)

theorem sum_map_vol_nonneg (l : List Row) : 0 ≤ (l.map vol).sum := by
  apply List.sum_nonneg
  intro x hx
  rcases List.mem_map.mp hx with ⟨r, _, rfl⟩
  exact vol_nonneg r

theorem cpTotal_mkCpEntry_nonneg (main1 main2 : String) (df : List Row)
    (cp : String) : 0 ≤ cpTotal (mkCpEntry main1 main2 df cp) := by
  have h1 := sum_map_vol_nonneg
    ((df.filter (fun r => r.counterparty == cp)).filter
      (fun r => bucketOf main1 main2 r == main1))
  have h2 := sum_map_vol_nonneg
    ((df.filter (fun r => r.counterparty == cp)).filter
      (fun r => bucketOf main1 main2 r == main2))
  have h3 := sum_map_vol_nonneg
    ((df.filter (fun r => r.counterparty == cp)).filter
      (fun r => bucketOf main1 main2 r == "Other"))
  have : cpTotal (mkCpEntry main1 main2 df cp)
      = (((df.filter (fun r => r.counterparty == cp)).filter
          (fun r => bucketOf main1 main2 r == main1)).map vol).sum
        + (((df.filter (fun r => r.counterparty == cp)).filter
          (fun r => bucketOf main1 main2 r == main2)).map vol).sum
        + (((df.filter (fun r => r.counterparty == cp)).filter
          (fun r => bucketOf main1 main2 r == "Other")).map vol).sum := rfl
  rw [this]
  positivity

/-- The three buckets partition the rows: per-bucket notional sums add
to the whole notional sum, provided the three bucket labels are
distinct. -/
theorem bucket_vol_partition (main1 main2 : String)
    (h12 : main1 ≠ main2) (h1o : main1 ≠ "Other") (h2o : main2 ≠ "Other") :
    ∀ l : List Row,
    ((l.filter (fun r => bucketOf main1 main2 r == main1)).map vol).sum
      + ((l.filter (fun r => bucketOf main1 main2 r == main2)).map vol).sum
      + ((l.filter (fun r => bucketOf main1 main2 r == "Other")).map vol).sum
      = (l.map vol).sum
  | [] => by simp
  | r :: l => by
    have ih := bucket_vol_partition main1 main2 h12 h1o h2o l
    rw [List.filter_cons, List.filter_cons, List.filter_cons,
      List.map_cons, List.sum_cons]
    by_cases hb1 : r.nombre.toUpper = main1.toUpper
    · have hb : bucketOf main1 main2 r = main1 := by
        rw [bucketOf, if_pos hb1]
      rw [hb, if_pos (by simp), if_neg (by simp [h12]), if_neg (by simp [h1o]),
        List.map_cons, List.sum_cons, ← ih]
      ring
    · by_cases hb2 : r.nombre.toUpper = main2.toUpper
      · have hb : bucketOf main1 main2 r = main2 := by
          rw [bucketOf, if_neg hb1, if_pos hb2]
        rw [hb, if_neg (by simp [Ne.symm h12]), if_pos (by simp),
          if_neg (by simp [h2o]), List.map_cons, List.sum_cons, ← ih]
        ring
      · have hb : bucketOf main1 main2 r = "Other" := by
          rw [bucketOf, if_neg hb1, if_neg hb2]
        rw [hb, if_neg (by simp [Ne.symm h1o]), if_neg (by simp [Ne.symm h2o]),
          if_pos (by simp), List.map_cons, List.sum_cons, ← ih]
        ring

theorem cpTotal_mkCpEntry (main1 main2 : String) (df : List Row) (cp : String)
    (h12 : main1 ≠ main2) (h1o : main1 ≠ "Other") (h2o : main2 ≠ "Other") :
    cpTotal (mkCpEntry main1 main2 df cp)
      = ((df.filter (fun r => r.counterparty == cp)).map vol).sum :=
  bucket_vol_partition main1 main2 h12 h1o h2o
    (df.filter (fun r => r.counterparty == cp))

theorem cpTotalGlobal_eq (main1 main2 : String) (df : List Row)
    (h12 : main1 ≠ main2) (h1o : main1 ≠ "Other") (h2o : main2 ≠ "Other") :
    cpTotalGlobal main1 main2 df = (df.map vol).sum := by
  rw [cpTotalGlobal, cpEntries, List.map_map]
  have hterm : ∀ cp ∈ cpKeys df,
      (cpTotal ∘ mkCpEntry main1 main2 df) cp
        = ((df.filter (fun r => r.counterparty == cp)).map vol).sum := by
    intro cp _
    exact cpTotal_mkCpEntry main1 main2 df cp h12 h1o h2o
  rw [List.map_congr_left hterm]
  have hperm : List.Perm (cpKeys df) (dedupFirst (df.map (fun r => r.counterparty))) :=
    List.perm_insertionSort strLe _
  exact sum_map_filter_partition (fun r => r.counterparty) vol (cpKeys df) df
    (hperm.nodup_iff.mpr (nodup_dedupFirst _))
    (fun r hr => hperm.mem_iff.mpr
      ((mem_dedupFirst _ _).mpr (List.mem_map_of_mem _ hr)))

theorem sum_pctTotal_filterMap (tg : ℚ) (l : List CpEntry)
    (h : ∀ e ∈ l, 0 ≤ cpTotal e) :
    ((l.filterMap (cpEmit tg)).map (fun c => c.pctTotal)).sum
      = (l.map cpTotal).sum / tg := by
  induction l with
  | nil => simp
  | cons e l ih =>
    rw [List.filterMap_cons]
    by_cases hc : cpTotal e ≤ 0
    · have h0 : cpTotal e = 0 := le_antisymm hc (h e (List.mem_cons_self _ _))
      rw [cpEmit, if_pos hc, ih (fun x hx => h x (List.mem_cons_of_mem _ hx)),
        List.map_cons, List.sum_cons, h0, zero_add]
    · rw [cpEmit, if_neg hc, List.map_cons, List.sum_cons,
        ih (fun x hx => h x (List.mem_cons_of_mem _ hx)),
        List.map_cons, List.sum_cons]
      show cpTotal e / tg + (l.map cpTotal).sum / tg = _
      rw [div_add_div_same]

/-- C6: in the counterparty volume-share summary every emitted row has
positive total (zero-volume counterparties are dropped), its three
bucket share fractions add to exactly 1, its total is the sum of
`|quantity| * |executionPrice|` over that counterparty's rows, and the
emitted global-share fractions `pct_total` add to exactly 1.  The
bucket labels must be pairwise distinct (they are in the deployed
`("TSLA", "NVDA")` instance) and the snapshot must carry some positive
notional. -/
theorem cp_volume_share_properties (main1 main2 : String) (df : List Row)
    (h12 : main1 ≠ main2) (h1o : main1 ≠ "Other") (h2o : main2 ≠ "Other")
    (hpos : 0 < (df.map vol).sum) :
    (∀ c ∈ cpSummary main1 main2 df,
        c.pct1 + c.pct2 + c.pctOther = 1
        ∧ 0 < c.total
        ∧ c.total = ((df.filter (fun r => r.counterparty == c.cp)).map
            (fun r => |r.qty| * |r.execPrice|)).sum)
    ∧ ((cpSummary main1 main2 df).map (fun c => c.pctTotal)).sum = 1 := by
  have htg0 : 0 < cpTotalGlobal main1 main2 df := by
    rw [cpTotalGlobal_eq main1 main2 df h12 h1o h2o]
    exact hpos
  constructor
  · intro c hc
    simp only [cpSummary] at hc
    rcases List.mem_filterMap.mp hc with ⟨e, he, hemit⟩
    rw [cpEmit] at hemit
    by_cases hle : cpTotal e ≤ 0
    · rw [if_pos hle] at hemit
      cases hemit
    · rw [if_neg hle] at hemit
      injection hemit with hric
      subst hric
      have hTpos : 0 < cpTotal e := not_le.mp hle
      refine ⟨?_, hTpos, ?_⟩
      · show e.vol1 / cpTotal e + e.vol2 / cpTotal e + e.volOther / cpTotal e = 1
        rw [div_add_div_same, div_add_div_same]
        exact div_self (ne_of_gt hTpos)
      · have he' : e ∈ cpEntries main1 main2 df :=
          (List.perm_insertionSort cpDescR _).mem_iff.mp he
        rcases List.mem_map.mp he' with ⟨cp, _, rfl⟩
        show cpTotal (mkCpEntry main1 main2 df cp) = _
        rw [cpTotal_mkCpEntry main1 main2 df cp h12 h1o h2o]
        rfl
  · simp only [cpSummary]
    rw [sum_pctTotal_filterMap]
    · rw [((List.perm_insertionSort cpDescR (cpEntries main1 main2 df)).map
        cpTotal).sum_eq, if_pos htg0]
      exact div_self (ne_of_gt htg0)
    · intro e he
      have he' : e ∈ cpEntries main1 main2 df :=
        (List.perm_insertionSort cpDescR _).mem_iff.mp he
      rcases List.mem_map.mp he' with ⟨cp, _, rfl⟩
      exact cpTotal_mkCpEntry_nonneg main1 main2 df cp

/-- Witness for C6 at the deployed bucket labels `("TSLA", "NVDA")` and
a one-row snapshot with notional `|2| * |3| = 6 > 0`. -/
theorem cp_volume_share_properties_witness :
    (∀ c ∈ cpSummary "TSLA" "NVDA" [mkRow "TSLA" "A" "H" "X" 2 3 0 0],
        c.pct1 + c.pct2 + c.pctOther = 1
        ∧ 0 < c.total
        ∧ c.total = (([mkRow "TSLA" "A" "H" "X" 2 3 0 0].filter
            (fun r => r.counterparty == c.cp)).map
            (fun r => |r.qty| * |r.execPrice|)).sum)
    ∧ ((cpSummary "TSLA" "NVDA" [mkRow "TSLA" "A" "H" "X" 2 3 0 0]).map
        (fun c => c.pctTotal)).sum = 1 :=
  cp_volume_share_properties "TSLA" "NVDA" [mkRow "TSLA" "A" "H" "X" 2 3 0 0]
    (by simp) (by simp) (by simp)
    (by
      rw [show ([mkRow "TSLA" "A" "H" "X" 2 3 0 0].map vol).sum
          = List.sum [|(2 : ℚ)| * |(3 : ℚ)|] from rfl]
      norm_num)

theorem cumFrom_length (acc : ℚ) (l : List (Nat × ℚ)) :
    (cumFrom acc l).length = l.length := by
  induction l generalizing acc with
  | nil => rfl
  | cons p ps ih => simp [cumFrom, ih]

theorem cumFrom_map_fst (acc : ℚ) (l : List (Nat × ℚ)) :
    (cumFrom acc l).map Prod.fst = l.map Prod.fst := by
  induction l generalizing acc with
  | nil => rfl
  | cons p ps ih => simp [cumFrom, ih]

theorem cumFrom_get (l : List (Nat × ℚ)) :
    ∀ (acc : ℚ) (i : Nat) (h1 : i < (cumFrom acc l).length) (h2 : i < l.length),
    (cumFrom acc l).get ⟨i, h1⟩
      = ((l.get ⟨i, h2⟩).1, acc + ((l.take (i + 1)).map (fun p => p.2)).sum) := by
  induction l with
  | nil => intro acc i h1 h2; cases h2
  | cons p ps ih =>
    intro acc i h1 h2
    cases i with
    | zero => simp [cumFrom]
    | succ j =>
      have hj1 : j < (cumFrom (acc + p.2) ps).length := by
        rw [cumFrom_length]
        rw [cumFrom_length] at h1
        exact Nat.lt_of_succ_lt_succ h1
      have hj2 : j < ps.length := Nat.lt_of_succ_lt_succ h2
      show (cumFrom (acc + p.2) ps).get ⟨j, hj1⟩ = _
      rw [ih (acc + p.2) j hj1 hj2]
      simp [add_assoc]

theorem cumFrom_chain (l : List (Nat × ℚ)) :
    ∀ acc : ℚ, (∀ p ∈ l, 0 ≤ p.2) →
    List.Chain' (fun p q : Nat × ℚ => p.2 ≤ q.2) (cumFrom acc l) := by
  induction l with
  | nil => intro acc _; exact List.chain'_nil
  | cons p ps ih =>
    intro acc h
    show List.Chain' _ ((p.1, acc + p.2) :: cumFrom (acc + p.2) ps)
    rw [List.chain'_cons']
    refine ⟨?_, ih (acc + p.2) (fun q hq => h q (List.mem_cons_of_mem _ hq))⟩
    intro y hy
    cases ps with
    | nil => cases hy
    | cons q qs =>
      have : y = (q.1, acc + p.2 + q.2) := by
        simp [cumFrom] at hy
        exact hy.symm
      rw [this]
      exact le_add_of_nonneg_right (h q (List.mem_cons_of_mem _ (List.mem_cons_self _ _)))

theorem foldl_min_le (l : List (Nat × ℚ)) :
    ∀ a : Nat, l.foldl (fun m q => min m q.1) a ≤ a := by
  induction l with
  | nil => intro a; exact le_refl a
  | cons p ps ih =>
    intro a
    exact le_trans (ih (min a p.1)) (min_le_left _ _)

theorem foldl_min_le_of_mem (l : List (Nat × ℚ)) :
    ∀ (a : Nat) (q : Nat × ℚ), q ∈ l → l.foldl (fun m q => min m q.1) a ≤ q.1 := by
  induction l with
  | nil => intro a q hq; cases hq
  | cons p ps ih =>
    intro a q hq
    rcases List.mem_cons.mp hq with rfl | hq
    · exact le_trans (foldl_min_le ps (min a q.1)) (min_le_right _ _)
    · exact ih (min a p.1) q hq

theorem firstSec_le (data : List (Nat × ℚ)) (q : Nat × ℚ) (hq : q ∈ data) :
    firstSec data ≤ q.1 := by
  cases data with
  | nil => cases hq
  | cons p ps =>
    rcases List.mem_cons.mp hq with rfl | hq
    · exact foldl_min_le ps q.1
    · exact foldl_min_le_of_mem ps p.1 q hq

theorem take_range' : ∀ (s n m : Nat),
    (List.range' s n).take m = List.range' s (min m n)
  | _, 0, m => by simp
  | _, n + 1, 0 => by simp
  | s, n + 1, m + 1 => by
    show (s :: List.range' (s + 1) n).take (m + 1) = _
    rw [List.take_succ_cons, take_range' (s + 1) n m]
    have : min (m + 1) (n + 1) = min m n + 1 := by omega
    rw [this]
    rfl

theorem cumSeries_length (data : List (Nat × ℚ)) :
    (cumSeries data).length = lastSec data - firstSec data + 1 := by
  rw [cumSeries, cumFrom_length, bucketed, List.length_map, secRange]
  simp

theorem bucketed_get (data : List (Nat × ℚ)) (i : Nat)
    (h : i < (bucketed data).length) :
    (bucketed data).get ⟨i, h⟩
      = (firstSec data + i, perSecondSum data (firstSec data + i)) := by
  simp [bucketed, secRange, List.getElem_range'_1]

theorem sum_perSecond_filter (data : List (Nat × ℚ)) (i : Nat) :
    ((List.range' (firstSec data) (i + 1)).map (perSecondSum data)).sum
      = ((data.filter (fun q => decide (q.1 ≤ firstSec data + i))).map
          (fun q => q.2)).sum := by
  have hpart := sum_map_filter_partition (fun q : Nat × ℚ => q.1)
    (fun q : Nat × ℚ => q.2)
    (List.range' (firstSec data) (i + 1))
    (data.filter (fun q => decide (q.1 ≤ firstSec data + i)))
    (by simp [List.nodup_range'])
    (by
      intro q hq
      have hmem : q ∈ data := List.mem_of_mem_filter hq
      have hle : q.1 ≤ firstSec data + i := by
        have := List.of_mem_filter hq
        simpa using this
      refine List.mem_range'_1.mpr ⟨firstSec_le data q hmem, ?_⟩
      show q.1 < firstSec data + (i + 1)
      omega)
  rw [← hpart]
  apply congrArg
  apply List.map_congr_left
  intro k hk
  have hk' : k ≤ firstSec data + i := by
    have := List.mem_range'_1.mp hk
    omega
  rw [perSecondSum]
  apply congrArg
  apply congrArg
  rw [List.filter_filter]
  apply List.filter_congr
  intro q _
  by_cases hq : q.1 = k
  · simp [hq, hk']
  · simp [hq]

theorem cumSeries_get (data : List (Nat × ℚ)) (i : Nat)
    (h : i < (cumSeries data).length) :
    (cumSeries data).get ⟨i, h⟩
      = (firstSec data + i,
         ((data.filter (fun q => decide (q.1 ≤ firstSec data + i))).map
           (fun q => q.2)).sum) := by
  have h2 : i < (bucketed data).length := by
    have hh := h
    rw [cumSeries, cumFrom_length] at hh
    exact hh
  show (cumFrom 0 (bucketed data)).get ⟨i, h⟩ = _
  rw [cumFrom_get (bucketed data) 0 i h h2, bucketed_get data i h2]
  have hsum : (((bucketed data).take (i + 1)).map (fun p => p.2)).sum
      = ((data.filter (fun q => decide (q.1 ≤ firstSec data + i))).map
          (fun q => q.2)).sum := by
    have hi : i + 1 ≤ lastSec data - firstSec data + 1 := by
      rw [bucketed, List.length_map, secRange] at h2
      simp at h2
      omega
    rw [bucketed, ← List.map_take, secRange, take_range',
      min_eq_left hi, List.map_map]
    have : ((fun p : Nat × ℚ => p.2) ∘ fun s => (s, perSecondSum data s))
        = perSecondSum data := rfl
    rw [this, sum_perSecond_filter data i]
  rw [hsum, zero_add]

theorem bucketed_nonneg (data : List (Nat × ℚ)) (hnn : ∀ q ∈ data, 0 ≤ q.2) :
    ∀ p ∈ bucketed data, 0 ≤ p.2 := by
  intro p hp
  rw [bucketed] at hp
  rcases List.mem_map.mp hp with ⟨sec, _, rfl⟩
  show 0 ≤ perSecondSum data sec
  apply List.sum_nonneg
  intro x hx
  rcases List.mem_map.mp hx with ⟨q, hq, rfl⟩
  exact hnn q (List.mem_of_mem_filter hq)

theorem cumSeries_example (T : Nat) :
    cumSeries [(T, (1 : ℚ)), (T + 5, 1)]
      = [(T, 1), (T + 1, 1), (T + 2, 1), (T + 3, 1), (T + 4, 1), (T + 5, 2)] := by
  have hfirst : firstSec [(T, (1 : ℚ)), (T + 5, 1)] = T := by
    simp [firstSec]
  have hlast : lastSec [(T, (1 : ℚ)), (T + 5, 1)] = T + 5 := by
    simp [lastSec]
  have hv0 : perSecondSum [(T, (1 : ℚ)), (T + 5, 1)] T = 1 := by
    rw [perSecondSum, List.filter_cons, List.filter_cons, List.filter_nil,
      if_pos (by simp), if_neg (by simp)]
    norm_num
  have hvj : ∀ j : Nat, j ≠ 0 → j ≠ 5 →
      perSecondSum [(T, (1 : ℚ)), (T + 5, 1)] (T + j) = 0 := by
    intro j h0 h5
    rw [perSecondSum, List.filter_cons, List.filter_cons, List.filter_nil,
      if_neg (by simp; omega), if_neg (by simp; omega)]
    rfl
  have hv5 : perSecondSum [(T, (1 : ℚ)), (T + 5, 1)] (T + 5) = 1 := by
    rw [perSecondSum, List.filter_cons, List.filter_cons, List.filter_nil,
      if_neg (by simp), if_pos (by simp)]
    norm_num
  have hrange : secRange [(T, (1 : ℚ)), (T + 5, 1)]
      = [T, T + 1, T + 2, T + 3, T + 4, T + 5] := by
    rw [secRange, hfirst, hlast, show T + 5 - T + 1 = 6 from by omega]
    rfl
  have hbuck : bucketed [(T, (1 : ℚ)), (T + 5, 1)]
      = [(T, 1), (T + 1, 0), (T + 2, 0), (T + 3, 0), (T + 4, 0), (T + 5, 1)] := by
    rw [bucketed, hrange]
    simp only [List.map_cons, List.map_nil]
    rw [hv0, hvj 1 (by omega) (by omega), hvj 2 (by omega) (by omega),
      hvj 3 (by omega) (by omega), hvj 4 (by omega) (by omega), hv5]
  rw [cumSeries, hbuck]
  norm_num [cumFrom]

/-- C3: on any non-empty in-window input, the cumulative series ranges
over the contiguous per-second index from the first to the last second
holding data; the value at offset `i` is the running sum of every
contribution up to second `firstSec + i` (zero-fill makes skipped
seconds repeat the previous value); the series is non-decreasing when
all contributions are non-negative; and the reference input with unit
trades at seconds `T` and `T + 5` yields exactly the six entries
`[1, 1, 1, 1, 1, 2]`. -/
theorem cumulative_series_contract (data : List (Nat × ℚ)) (_hne : data ≠ []) :
    ((cumSeries data).map Prod.fst
        = List.range' (firstSec data) (lastSec data - firstSec data + 1))
    ∧ (∀ i : Nat, ∀ h : i < (cumSeries data).length,
        (cumSeries data).get ⟨i, h⟩
          = (firstSec data + i,
             ((data.filter (fun q => decide (q.1 ≤ firstSec data + i))).map
               (fun q => q.2)).sum))
    ∧ ((∀ q ∈ data, 0 ≤ q.2) →
        List.Chain' (fun p q : Nat × ℚ => p.2 ≤ q.2) (cumSeries data))
    ∧ (∀ T : Nat, cumSeries [(T, (1 : ℚ)), (T + 5, 1)]
        = [(T, 1), (T + 1, 1), (T + 2, 1), (T + 3, 1), (T + 4, 1), (T + 5, 2)]) := by
  refine ⟨?_, ?_, ?_, cumSeries_example⟩
  · rw [cumSeries, cumFrom_map_fst, bucketed, List.map_map]
    have : (Prod.fst ∘ fun s => (s, perSecondSum data s)) = id := rfl
    rw [this, List.map_id, secRange]
  · intro i h
    exact cumSeries_get data i h
  · intro hnn
    exact cumFrom_chain (bucketed data) 0 (bucketed_nonneg data hnn)

/-- Witness for C3 at the concrete input with unit trades at seconds 3
and 8: six contiguous seconds, cumulative values `[1, 1, 1, 1, 1, 2]`,
non-decreasing. -/
theorem cumulative_series_contract_witness :
    (cumSeries [((3 : Nat), (1 : ℚ)), (8, 1)]).map Prod.fst = List.range' 3 6
    ∧ List.Chain' (fun p q : Nat × ℚ => p.2 ≤ q.2)
        (cumSeries [((3 : Nat), (1 : ℚ)), (8, 1)])
    ∧ cumSeries [((3 : Nat), (1 : ℚ)), (8, 1)]
        = [(3, 1), (4, 1), (5, 1), (6, 1), (7, 1), (8, 2)] := by
  have h := cumulative_series_contract [((3 : Nat), (1 : ℚ)), (8, 1)] (by simp)
  refine ⟨h.1, h.2.2.1 ?_, h.2.2.2 3⟩
  intro q hq
  simp at hq
  rcases hq with rfl | rfl <;> norm_num
